import Mathlib

/-!
Shallow embedding of `src/seller.py` (price/stock synchronisation between a
vendor spreadsheet feed and a marketplace seller API), together with proofs
about its reconciliation logic.

Conventions of the embedding:
* Python machine integers are modelled by `Int` (arbitrary precision, as in
  Python itself); counts and list lengths by `Nat`.
* Spreadsheet cell values are modelled as strings (the code itself passes
  every cell through `str(...)` before comparing).
* Fallible code (Python exceptions) is modelled with `Option`: `none` means
  the Python call raises.
* The in-place mutation of the `offer_ids` list performed by `create_stocks`
  (`offer_ids.remove(...)`) is modelled by explicit state passing: the
  function returns, next to the stock list, the final state of `offer_ids`.
-/

namespace Seller

/-- Characters kept by the regular expression `[0-9]` of
`re.sub("[^0-9]", "", ...)` in `price_conversion`: ASCII decimal digits. -/
def isAsciiDigit (c : Char) : Bool :=
  '0' ≤ c && c ≤ '9'

/-- Models Python `str.split` with a one-character separator, at the level of
character lists: `"".split(".") == [""]`, `"a.b".split(".") == ["a","b"]`,
`".".split(".") == ["", ""]`.  The result is always nonempty. -/
def pySplit (sep : Char) : List Char → List (List Char)
  | [] => [[]]
  | c :: rest =>
    if c = sep then [] :: pySplit sep rest
    else
      match pySplit sep rest with
      | [] => [[c]]
      | field :: fields => (c :: field) :: fields

/-- Digit-string evaluation used by the model of Python `int`: `some` of the
value when the character list is a nonempty run of ASCII digits. -/
def pyDigits (ds : List Char) : Option Nat :=
  if ds ≠ [] ∧ ds.all isAsciiDigit then
    some (ds.foldl (fun n c => 10 * n + (c.toNat - 48)) 0)
  else none

/-- Models Python `int()` applied to a string: surrounding whitespace is
ignored, an optional single sign is allowed, and the remainder must be a
nonempty run of decimal digits, otherwise `ValueError` (here `none`).
(Underscore digit grouping, accepted by Python 3, is not modelled; no claim
depends on it.) -/
def pyInt (s : String) : Option Int :=
  match ((s.toList.dropWhile Char.isWhitespace).reverse.dropWhile
      Char.isWhitespace).reverse with
  | '+' :: ds => (pyDigits ds).map fun n => (n : Int)
  | '-' :: ds => (pyDigits ds).map fun n => -(n : Int)
  | ds => (pyDigits ds).map fun n => (n : Int)

/-- A parsed spreadsheet row of the vendor feed (`watch_remnants` entry).
The fields carry the spreadsheet column keys used by the code:
`«Код»` (vendor code), `Количество` (quantity), `Цена` (price). -/
structure VendorRow where
  «Код» : String
  «Количество» : String
  «Цена» : String
deriving DecidableEq, Repr

/-- A stock payload entry built by `create_stocks`:
`{"offer_id": ..., "stock": ...}`. -/
structure StockRecord where
  offer_id : String
  stock : Int
deriving DecidableEq, Repr

/-- A price payload entry built by `create_prices`. -/
structure PriceRecord where
  auto_action_enabled : String
  currency_code : String
  offer_id : String
  old_price : String
  price : String
deriving DecidableEq, Repr

/-- The quantity-to-stock policy inside the loop of `create_stocks`:
`">10"` maps to `100`, `"1"` maps to `0`, anything else goes through
Python `int(...)` (which may raise). -/
def stockOfCount (count : String) : Option Int :=
  if count = ">10" then some 100
  else if count = "1" then some 0
  else pyInt count

/-- The `for watch in watch_remnants` loop of `create_stocks`, with the
mutation `offer_ids.remove(...)` made explicit: given the rows still to
process and the current state of `offer_ids`, returns the stock records
appended by the loop together with the final state of `offer_ids`. -/
def stocksLoop : List VendorRow → List String → Option (List StockRecord × List String)
  | [], offer_ids => some ([], offer_ids)
  | watch :: rest, offer_ids =>
    if watch.«Код» ∈ offer_ids then
      (stockOfCount watch.«Количество»).bind fun stock =>
        (stocksLoop rest (offer_ids.erase watch.«Код»)).map fun p =>
          (⟨watch.«Код», stock⟩ :: p.1, p.2)
    else stocksLoop rest offer_ids

/-- Embedding of `create_stocks(watch_remnants, offer_ids)` of `src/seller.py`: runs the
matching loop, then appends a zero-stock record for every offer id left in
`offer_ids`.  Returns the stock list together with the final state of the
(mutated) `offer_ids` argument. -/
def create_stocks (watch_remnants : List VendorRow) (offer_ids : List String) :
    Option (List StockRecord × List String) :=
  (stocksLoop watch_remnants offer_ids).map fun p =>
    (p.1 ++ p.2.map (fun offer_id => ⟨offer_id, 0⟩), p.2)

/-- Embedding of `price_conversion(price)` of `src/seller.py`:
`re.sub("[^0-9]", "", price.split(".")[0])`. -/
def price_conversion (price : String) : String :=
  String.mk (((pySplit '.' price.toList).headD []).filter isAsciiDigit)

/-- The price dictionary built for one matching vendor row inside
`create_prices`. -/
def priceRecordOf (watch : VendorRow) : PriceRecord :=
  { auto_action_enabled := "UNKNOWN"
    currency_code := "RUB"
    offer_id := watch.«Код»
    old_price := "0"
    price := price_conversion watch.«Цена» }

/-- Embedding of `create_prices(watch_remnants, offer_ids)` of `src/seller.py`: one price
record per vendor row whose code is in `offer_ids`, in feed order; the
`offer_ids` argument is only read, never mutated. -/
def create_prices : List VendorRow → List String → List PriceRecord
  | [], _ => []
  | watch :: rest, offer_ids =>
    if watch.«Код» ∈ offer_ids then priceRecordOf watch :: create_prices rest offer_ids
    else create_prices rest offer_ids

/-- Models Python `range(0, stop, step)` for a nonzero step: for a positive
step the indices `0, step, 2*step, ...` below `stop`; for a negative step the
range counting down from `0` while above a nonnegative `stop`, which is
empty. -/
def pyRange (stop : Nat) (step : Int) : List Nat :=
  if step ≤ 0 then []
  else (List.range ((stop + step.toNat - 1) / step.toNat)).map (· * step.toNat)

/-- Embedding of `divide(lst, n)` of `src/seller.py`:
`for i in range(0, len(lst), n): yield lst[i : i + n]`, with the generator
forced to a list.  `range` raises `ValueError` exactly when the step `n`
is zero, modelled by `none`. -/
def divide {α : Type} (lst : List α) (n : Int) : Option (List (List α)) :=
  if n = 0 then none
  else some ((pyRange lst.length n).map fun i => (lst.drop i).take n.toNat)

/-- An item of the marketplace product listing; only its `offer_id` field is
read by `get_offer_ids`. -/
structure Product where
  offer_id : String
deriving DecidableEq, Repr

/-- One response of the paginated product listing endpoint, as consumed by
`get_offer_ids`: the `items`, the reported `total`, and the pagination
cursor `last_id` (the cursor chaining is captured by indexing responses by
request number). -/
structure Page where
  items : List Product
  total : Int
  last_id : String

/-- The `while True` loop of `get_offer_ids`, with fuel making the possible
divergence explicit: `pages k` is the response to the `k`-th request, `acc`
the `product_list` accumulated so far.  Returns `none` when the fuel runs
out before the loop breaks. -/
def offerLoop (pages : Nat → Page) : Nat → Nat → List Product → Option (List String)
  | 0, _, _ => none
  | fuel + 1, k, acc =>
    let acc' := acc ++ (pages k).items
    if (pages k).total = (acc'.length : Int) then
      some (acc'.map Product.offer_id)
    else offerLoop pages fuel (k + 1) acc'

/-- Embedding of `get_offer_ids` of `src/seller.py` over a modelled sequence of page
responses, with fuel bounding the number of loop iterations. -/
def get_offer_ids (pages : Nat → Page) (fuel : Nat) : Option (List String) :=
  offerLoop pages fuel 0 []

/-- The `product_list` accumulated after the first `k` loop iterations. -/
def accUpTo (pages : Nat → Page) : Nat → List Product
  | 0 => []
  | k + 1 => accUpTo pages k ++ (pages k).items

/-- The break condition of the `get_offer_ids` loop at iteration `k`: the
total reported by the `k`-th response equals the length of `product_list`
right after extending it with that response's items. -/
def stopsAt (pages : Nat → Page) (k : Nat) : Prop :=
  (pages k).total = ((accUpTo pages (k + 1)).length : Int)

/-! Concrete inputs used by witnesses and counterexamples. -/

/-- A one-row vendor feed: code `"A"`, the more-than-ten sentinel, price
`"999.00"`. -/
def rowA : VendorRow := ⟨"A", ">10", "999.00"⟩

/-- A one-row vendor feed list containing only `rowA`. -/
def V1 : List VendorRow := [rowA]

/-- A one-element offer-id catalog matching `rowA`. -/
def K1 : List String := ["A"]

/-- A vendor row with a plain numeric quantity `"7"`. -/
def row7 : VendorRow := ⟨"A", "7", "10"⟩

/-- The end-to-end scenario feed of the spec: codes `"A"` and `"B"`, the
more-than-ten and exactly-one sentinels, prices `"999.00"` and
`"5'000.00"`. -/
def V9 : List VendorRow := [⟨"A", ">10", "999.00"⟩, ⟨"B", "1", "5\x27000.00"⟩]

/-- The end-to-end scenario catalog of the spec. -/
def K9 : List String := ["A", "B", "C"]

/-! Helper lemmas. -/

/-- Python `split` never returns an empty list of fields. -/
theorem pySplit_ne_nil (sep : Char) (l : List Char) : pySplit sep l ≠ [] := by
  cases l with
  | nil => simp [pySplit]
  | cons c rest =>
    simp only [pySplit]
    split
    · simp
    · cases h : pySplit sep rest <;> simp

/-- The first field of a Python single-character split is the prefix of the
input before the first occurrence of the separator. -/
theorem pySplit_headD (sep : Char) (l : List Char) :
    (pySplit sep l).headD [] = l.takeWhile (fun c => c != sep) := by
  induction l with
  | nil => simp [pySplit]
  | cons c rest ih =>
    simp only [pySplit]
    by_cases h : c = sep
    · simp [h]
    · rw [if_neg h]
      cases hps : pySplit sep rest with
      | nil => exact absurd hps (pySplit_ne_nil sep rest)
      | cons f fs =>
        rw [hps] at ih
        simp only [List.headD_cons] at ih
        simp [List.takeWhile_cons, h, ih]

/-! Claim C7: the price normalizer contract. -/

/-- C7: for every input string, `price_conversion` returns exactly the
decimal digits of the text before the first period character, all non-digit
characters removed; in particular it maps `"5'990.00"` to `"5990"`,
`"1,234.56"` to `"1234"`, and `"100"` (no period: the whole text is scanned
for digits) to `"100"`. -/
theorem price_conversion_digits_before_period :
    (∀ s : String,
      price_conversion s =
        String.mk ((s.toList.takeWhile (fun c => c != '.')).filter isAsciiDigit)) ∧
    price_conversion "5\x27990.00" = "5990" ∧
    price_conversion "1,234.56" = "1234" ∧
    price_conversion "100" = "100" := by
  refine ⟨fun s => ?_, by decide, by decide, by decide⟩
  unfold price_conversion
  rw [pySplit_headD]

/-! Claim C6: shape of the price-record list. -/

/-- C6: `create_prices` emits exactly one record per vendor row whose code is
in the offer-id list, in feed order (so duplicate rows each produce their own
record), and never emits a record whose `offer_id` lies outside the offer-id
list. -/
theorem create_prices_feed_order (V : List VendorRow) (K : List String) :
    create_prices V K = (V.filter fun w => decide (w.«Код» ∈ K)).map priceRecordOf ∧
    ∀ r ∈ create_prices V K, r.offer_id ∈ K := by
  have hmain : ∀ V : List VendorRow,
      create_prices V K = (V.filter fun w => decide (w.«Код» ∈ K)).map priceRecordOf := by
    intro V
    induction V with
    | nil => simp [create_prices]
    | cons w rest ih =>
      by_cases h : w.«Код» ∈ K
      · simp [create_prices, List.filter_cons, h, ih]
      · simp [create_prices, List.filter_cons, h, ih]
  refine ⟨hmain V, fun r hr => ?_⟩
  rw [hmain V] at hr
  obtain ⟨w, hw, rfl⟩ := List.mem_map.1 hr
  have := List.of_mem_filter hw
  simpa [priceRecordOf] using of_decide_eq_true this

/-- Witness for C6 at the concrete scenario feed and catalog. -/
theorem create_prices_feed_order_witness :
    create_prices V9 K9 = (V9.filter fun w => decide (w.«Код» ∈ K9)).map priceRecordOf ∧
    ∀ r ∈ create_prices V9 K9, r.offer_id ∈ K9 :=
  create_prices_feed_order V9 K9

/-! Claim C9: the end-to-end reconciliation scenario. -/

/-- C9: with catalog `["A", "B", "C"]` and the two scenario vendor rows,
`create_stocks` returns stocks `[("A", 100), ("B", 0), ("C", 0)]` and
`create_prices` returns price records for `"A"` (price `"999"`) and `"B"`
(price `"5000"`), in that order. -/
theorem end_to_end_scenario :
    (create_stocks V9 K9).map Prod.fst =
      some [⟨"A", 100⟩, ⟨"B", 0⟩, ⟨"C", 0⟩] ∧
    create_prices V9 K9 =
      [⟨"UNKNOWN", "RUB", "A", "0", "999"⟩, ⟨"UNKNOWN", "RUB", "B", "0", "5000"⟩] := by
  decide

/-! Claim C3: behaviour of `divide` on non-positive batch sizes.  The claim
says `divide` errors on every `n ≤ 0`; in the code only `n = 0` makes
`range` raise, while a negative `n` yields an empty index range and hence an
empty batch sequence with no error. -/

/-- C3 counterexample: at the concrete non-positive batch size `-1`, the
batch splitter does not raise; it returns an empty sequence of batches,
refuting the claim that every `n ≤ 0` produces an error. -/
theorem divide_negative_no_error_cex :
    divide ([1, 2, 3] : List Int) (-1) ≠ none ∧
    divide ([1, 2, 3] : List Int) (-1) = some [] := by
  refine ⟨?_, by decide⟩
  decide

/-- C3 amended: `divide` fails precisely when the batch size is zero; for a
negative batch size it produces an empty sequence of batches (no batches, no
error). -/
theorem divide_error_iff {α : Type} (lst : List α) (n : Int) :
    (divide lst n = none ↔ n = 0) ∧ (n < 0 → divide lst n = some []) := by
  constructor
  · unfold divide
    split <;> simp_all
  · intro hneg
    unfold divide
    rw [if_neg (by omega)]
    simp [pyRange, Int.le_of_lt hneg]

/-- Witness for C3 amended at a concrete negative batch size. -/
theorem divide_error_iff_witness :
    divide ([1, 2] : List Nat) (-2) = some [] :=
  (divide_error_iff [1, 2] (-2)).2 (by decide)

/-! Lemmas about the matching loop of `create_stocks`. -/

/-- The offer ids of the records appended by the matching loop, together with
the final state of `offer_ids`, form a permutation of the initial
`offer_ids`: each matched code moves from the id list into the record list,
everything else stays. -/
theorem stocksLoop_perm (V : List VendorRow) :
    ∀ (K : List String) (recs : List StockRecord) (K' : List String),
      stocksLoop V K = some (recs, K') →
      (recs.map StockRecord.offer_id ++ K').Perm K := by
  induction V with
  | nil =>
    intro K recs K' h
    simp only [stocksLoop, Option.some.injEq, Prod.mk.injEq] at h
    obtain ⟨rfl, rfl⟩ := h
    simp
  | cons w rest ih =>
    intro K recs K' h
    simp only [stocksLoop] at h
    by_cases hmem : w.«Код» ∈ K
    · rw [if_pos hmem] at h
      rw [Option.bind_eq_some] at h
      obtain ⟨stock, _, h⟩ := h
      rw [Option.map_eq_some'] at h
      obtain ⟨⟨recs', K''⟩, hrec, hp⟩ := h
      cases hp
      have hperm := ih (K.erase w.«Код») recs' K'' hrec
      have : (w.«Код» :: (recs'.map StockRecord.offer_id ++ K'')).Perm K :=
        (hperm.cons _).trans (List.perm_cons_erase hmem).symm
      simpa using this
    · rw [if_neg hmem] at h
      exact ih K recs K' h

/-- An offer id matched by no vendor row survives the matching loop: it is
still in the final state of `offer_ids`. -/
theorem stocksLoop_unmatched_mem (V : List VendorRow) :
    ∀ (K : List String) (recs : List StockRecord) (K' : List String) (id : String),
      id ∈ K → (∀ w ∈ V, w.«Код» ≠ id) →
      stocksLoop V K = some (recs, K') → id ∈ K' := by
  induction V with
  | nil =>
    intro K recs K' id hid _ h
    simp only [stocksLoop, Option.some.injEq, Prod.mk.injEq] at h
    obtain ⟨rfl, rfl⟩ := h
    exact hid
  | cons w rest ih =>
    intro K recs K' id hid hun h
    simp only [stocksLoop] at h
    by_cases hmem : w.«Код» ∈ K
    · rw [if_pos hmem] at h
      rw [Option.bind_eq_some] at h
      obtain ⟨stock, _, h⟩ := h
      rw [Option.map_eq_some'] at h
      obtain ⟨⟨recs', K''⟩, hrec, hp⟩ := h
      cases hp
      have hne : id ≠ w.«Код» := fun he => hun w (by simp) (he ▸ rfl)
      exact ih (K.erase w.«Код») recs' K'' id
        ((List.mem_erase_of_ne hne).2 hid)
        (fun v hv => hun v (by simp [hv])) hrec
    · rw [if_neg hmem] at h
      exact ih K recs K' id hid (fun v hv => hun v (by simp [hv])) h

/-- For a duplicate-free initial `offer_ids`, the matching loop leaves
exactly the ids whose code occurs in no vendor row. -/
theorem stocksLoop_state (V : List VendorRow) :
    ∀ (K : List String) (recs : List StockRecord) (K' : List String),
      K.Nodup → stocksLoop V K = some (recs, K') →
      K' = K.filter fun id => V.all fun w => w.«Код» != id := by
  induction V with
  | nil =>
    intro K recs K' _ h
    simp only [stocksLoop, Option.some.injEq, Prod.mk.injEq] at h
    obtain ⟨rfl, rfl⟩ := h
    simp
  | cons w rest ih =>
    intro K recs K' hnd h
    simp only [stocksLoop] at h
    by_cases hmem : w.«Код» ∈ K
    · rw [if_pos hmem] at h
      rw [Option.bind_eq_some] at h
      obtain ⟨stock, _, h⟩ := h
      rw [Option.map_eq_some'] at h
      obtain ⟨⟨recs', K''⟩, hrec, hp⟩ := h
      cases hp
      have := ih (K.erase w.«Код») recs' K'' (hnd.erase _) hrec
      rw [this, hnd.erase_eq_filter, List.filter_filter]
      refine List.filter_congr fun id _ => ?_
      simp only [List.all_cons]
      rcases eq_or_ne w.«Код» id with he | he
      · subst he
        simp
      · have h1 : (id == w.«Код») = false := beq_eq_false_iff_ne.mpr (Ne.symm he)
        have h2 : (w.«Код» == id) = false := beq_eq_false_iff_ne.mpr he
        simp [bne, h1, h2]
    · rw [if_neg hmem] at h
      rw [ih K recs K' hnd h]
      refine (List.filter_congr fun id hid => ?_).symm
      have hne : (w.«Код» == id) = false :=
        beq_eq_false_iff_ne.mpr fun he => hmem (he ▸ hid)
      simp [List.all_cons, bne, hne]

/-! Claim C1: whether `create_stocks` leaves the offer-id collection
unchanged.  It does not: the loop removes every matched code from the
collection it was given, so a later `create_prices` on the same collection
sees only the unmatched ids. -/

/-- C1 counterexample: at the concrete feed `V1` and catalog `K1`,
`create_stocks` hands back the offer-id collection with the matched code
`"A"` removed (the empty collection, different from `K1`), and
`create_prices` of the same feed over that mutated collection differs from
`create_prices` over a fresh copy of the original `K1`. -/
theorem create_stocks_mutation_cex :
    create_stocks V1 K1 = some ([⟨"A", 100⟩], []) ∧
    ([] : List String) ≠ K1 ∧
    create_prices V1 [] ≠ create_prices V1 K1 := by
  refine ⟨by decide, by decide, by decide⟩

/-- C1 amended: `create_stocks(V, K)` does not leave `K` unchanged; it
removes every matched code, so that (for duplicate-free `K`) the collection
it leaves behind is exactly the ids of `K` whose code occurs in no row of
`V` — the collection a subsequent `create_prices` on the same (shared,
mutated) collection would test against, in general different from the
original `K`. -/
theorem create_stocks_residual (V : List VendorRow) (K : List String)
    (res : List StockRecord × List String) (hnd : K.Nodup)
    (h : create_stocks V K = some res) :
    res.2 = K.filter fun id => V.all fun w => w.«Код» != id := by
  unfold create_stocks at h
  rw [Option.map_eq_some'] at h
  obtain ⟨⟨recs, K'⟩, hrec, hp⟩ := h
  cases hp
  exact stocksLoop_state V K recs K' hnd hrec

/-- Witness for C1 amended at the concrete feed `V1` and catalog `K1`. -/
theorem create_stocks_residual_witness :
    ([] : List String) = K1.filter fun id => V1.all fun w => w.«Код» != id :=
  create_stocks_residual V1 K1 ([⟨"A", 100⟩], []) (by decide) (by decide)

/-! Claim C2: the stock list covers the catalog exactly. -/

/-- C2: for a duplicate-free catalog `K`, a successful `create_stocks(V, K)`
returns a stock list with exactly `K.length` records whose offer ids all
belong to `K`, with no offer id repeated and every member of `K` covered. -/
theorem create_stocks_catalog_cover (V : List VendorRow) (K : List String)
    (res : List StockRecord × List String) (hnd : K.Nodup)
    (h : create_stocks V K = some res) :
    res.1.length = K.length ∧
    (∀ s ∈ res.1, s.offer_id ∈ K) ∧
    (res.1.map StockRecord.offer_id).Nodup ∧
    ∀ id ∈ K, ∃ s ∈ res.1, s.offer_id = id := by
  unfold create_stocks at h
  rw [Option.map_eq_some'] at h
  obtain ⟨⟨recs, K'⟩, hrec, hp⟩ := h
  cases hp
  have hperm := stocksLoop_perm V K recs K' hrec
  have hids : (recs ++ K'.map fun offer_id => (⟨offer_id, 0⟩ : StockRecord)).map
      StockRecord.offer_id = recs.map StockRecord.offer_id ++ K' := by
    simp only [List.map_append, List.map_map]
    rw [show (StockRecord.offer_id ∘ fun offer_id => (⟨offer_id, 0⟩ : StockRecord))
        = id from rfl, List.map_id]
  refine ⟨?_, fun s hs => ?_, ?_, fun id hid => ?_⟩
  · have h1 : (recs ++ K'.map fun offer_id => (⟨offer_id, 0⟩ : StockRecord)).length
        = (recs.map StockRecord.offer_id ++ K').length := by simp
    exact h1.trans hperm.length_eq
  · have hmem : s.offer_id ∈ recs.map StockRecord.offer_id ++ K' := by
      rw [← hids]
      exact List.mem_map_of_mem _ hs
    exact hperm.mem_iff.mp hmem
  · rw [hids]
    exact hperm.nodup_iff.mpr hnd
  · have hmem : id ∈ recs.map StockRecord.offer_id ++ K' := hperm.mem_iff.mpr hid
    rw [← hids] at hmem
    exact List.mem_map.mp hmem

/-- A two-id catalog used by witnesses: the code of `rowA` plus an id that
no row of `V1` carries. -/
def KAC : List String := ["A", "C"]

/-- The value of `create_stocks V1 KAC`: the matched record for `"A"`, the
zero-out record for `"C"`, and the residual id collection `["C"]`. -/
def resAC : List StockRecord × List String := ([⟨"A", 100⟩, ⟨"C", 0⟩], ["C"])

/-- Witness for C2 at the concrete feed `V1` and catalog `KAC`. -/
theorem create_stocks_catalog_cover_witness :
    resAC.1.length = KAC.length ∧
    (∀ s ∈ resAC.1, s.offer_id ∈ KAC) ∧
    (resAC.1.map StockRecord.offer_id).Nodup ∧
    ∀ id ∈ KAC, ∃ s ∈ resAC.1, s.offer_id = id :=
  create_stocks_catalog_cover V1 KAC resAC (by decide) (by decide)

/-! Claim C4: the quantity-to-stock policy. -/

/-- C4: for a vendor row whose code is in the catalog, the record emitted
for it carries stock `100` when the quantity is the sentinel `">10"`, stock
`0` when the quantity is `"1"`, and otherwise the quantity parsed as an
integer, used verbatim. -/
theorem create_stocks_quantity_policy (w : VendorRow) (V : List VendorRow)
    (K : List String) (hmem : w.«Код» ∈ K) :
    (w.«Количество» = ">10" → ∀ res, create_stocks (w :: V) K = some res →
      res.1.head? = some ⟨w.«Код», 100⟩) ∧
    (w.«Количество» = "1" → ∀ res, create_stocks (w :: V) K = some res →
      res.1.head? = some ⟨w.«Код», 0⟩) ∧
    ∀ z : Int, w.«Количество» ≠ ">10" → w.«Количество» ≠ "1" →
      pyInt w.«Количество» = some z →
      ∀ res, create_stocks (w :: V) K = some res →
        res.1.head? = some ⟨w.«Код», z⟩ := by
  have key : ∀ s : Int, stockOfCount w.«Количество» = some s →
      ∀ res, create_stocks (w :: V) K = some res →
        res.1.head? = some ⟨w.«Код», s⟩ := by
    intro s hs res h
    unfold create_stocks at h
    rw [Option.map_eq_some'] at h
    obtain ⟨⟨recs, K'⟩, hrec, hp⟩ := h
    cases hp
    simp only [stocksLoop, if_pos hmem, hs, Option.some_bind] at hrec
    rw [Option.map_eq_some'] at hrec
    obtain ⟨⟨recs', K''⟩, _, hp2⟩ := hrec
    cases hp2
    simp
  refine ⟨fun hq => key 100 ?_, fun hq => key 0 ?_, fun z hq1 hq2 hz => key z ?_⟩
  · simp [stockOfCount, hq]
  · simp [stockOfCount, hq]
  · simp [stockOfCount, hq1, hq2, hz]

/-- Witness for C4 at a concrete row with numeric quantity `"7"`. -/
theorem create_stocks_quantity_policy_witness :
    (([⟨"A", 7⟩], []) : List StockRecord × List String).1.head?
      = some (⟨"A", 7⟩ : StockRecord) :=
  (create_stocks_quantity_policy row7 [] K1 (by decide)).2.2 7 (by decide) (by decide)
    (by decide) ([⟨"A", 7⟩], []) (by decide)

/-! Claim C5: the zero-out policy for catalog ids absent from the feed. -/

/-- C5: every offer id of the catalog whose code matches no vendor row
appears in the stock list produced by a successful `create_stocks` with
stock `0`. -/
theorem create_stocks_zero_out (V : List VendorRow) (K : List String)
    (id : String) (res : List StockRecord × List String) (hid : id ∈ K)
    (hun : ∀ w ∈ V, w.«Код» ≠ id) (h : create_stocks V K = some res) :
    (⟨id, 0⟩ : StockRecord) ∈ res.1 := by
  unfold create_stocks at h
  rw [Option.map_eq_some'] at h
  obtain ⟨⟨recs, K'⟩, hrec, hp⟩ := h
  cases hp
  have hK' : id ∈ K' := stocksLoop_unmatched_mem V K recs K' id hid hun hrec
  exact List.mem_append_right _ (List.mem_map_of_mem _ hK')

/-- Witness for C5: in the catalog `KAC`, the id `"C"` matches no row of
`V1` and receives the zero-stock record. -/
theorem create_stocks_zero_out_witness :
    (⟨"C", 0⟩ : StockRecord) ∈ resAC.1 :=
  create_stocks_zero_out V1 KAC "C" resAC (by decide) (by decide) (by decide)

/-! Claim C8: the partition property of `divide` for positive batch sizes.
The index-based slicing loop is first related to a recursive take/drop
characterisation (`chunkRec`, batches of size `n + 1`), whose properties are
then transported back. -/

/-- Recursive characterisation of slicing a list into contiguous batches of
`n + 1` elements. -/
def chunkRec {α : Type} (n : Nat) : List α → List (List α)
  | [] => []
  | c :: rest => ((c :: rest).take (n + 1)) :: chunkRec n (rest.drop n)
termination_by l => l.length
decreasing_by simp [List.length_drop]; omega

/-- Concatenating the batches of `chunkRec` gives back the original list. -/
theorem chunkRec_flatten {α : Type} (n : Nat) (l : List α) :
    (chunkRec n l).flatten = l := by
  match l with
  | [] => rw [chunkRec]; rfl
  | c :: rest =>
    have ih := chunkRec_flatten n (rest.drop n)
    rw [chunkRec, List.flatten_cons, ih, List.take_succ_cons, List.cons_append,
      List.take_append_drop]
termination_by l.length
decreasing_by simp; omega

/-- Every batch of `chunkRec` has at most `n + 1` elements. -/
theorem chunkRec_length_le {α : Type} (n : Nat) (l : List α) :
    ∀ b ∈ chunkRec n l, b.length ≤ n + 1 := by
  match l with
  | [] => rw [chunkRec]; intro b hb; cases hb
  | c :: rest =>
    have ih := chunkRec_length_le n (rest.drop n)
    rw [chunkRec]
    intro b hb
    rcases List.mem_cons.mp hb with rfl | hb'
    · simp [List.length_take_le (n + 1) (c :: rest)]
    · exact ih b hb'
termination_by l.length
decreasing_by simp; omega

/-- The batching `chunkRec` produces no batches exactly on the empty list. -/
theorem chunkRec_eq_nil_iff {α : Type} (n : Nat) (l : List α) :
    chunkRec n l = [] ↔ l = [] := by
  cases l with
  | nil => rw [chunkRec]; simp
  | cons c rest => rw [chunkRec]; simp

/-- Every batch of `chunkRec` except possibly the last has exactly `n + 1`
elements. -/
theorem chunkRec_dropLast {α : Type} (n : Nat) (l : List α) :
    ∀ b ∈ (chunkRec n l).dropLast, b.length = n + 1 := by
  match l with
  | [] => rw [chunkRec]; intro b hb; cases hb
  | c :: rest =>
    have ih := chunkRec_dropLast n (rest.drop n)
    rw [chunkRec]
    cases hR : chunkRec n (rest.drop n) with
    | nil => intro b hb; cases hb
    | cons r rs =>
      rw [List.dropLast_cons_of_ne_nil (by simp)]
      intro b hb
      rcases List.mem_cons.mp hb with rfl | hb'
      · have hdrop : rest.drop n ≠ [] := by
          intro hcon
          rw [hcon] at hR
          exact absurd hR.symm ((chunkRec_eq_nil_iff n ([] : List α)).mpr rfl ▸ by simp)
        have hlen : n < rest.length := by
          by_contra hge
          exact hdrop (List.drop_eq_nil_of_le (by omega))
        simp [List.length_take]
        omega
      · rw [← hR] at hb'
        exact ih b hb'
termination_by l.length
decreasing_by simp; omega

/-- The index-based slicing `[lst[i : i + m] for i in range(0, len(lst), m)]`
with a positive `m` computes exactly the recursive batching
`chunkRec (m - 1)`. -/
theorem sliceMap_eq_chunkRec {α : Type} (m : Nat) (hm : 0 < m) (l : List α) :
    ((List.range ((l.length + m - 1) / m)).map (· * m)).map
      (fun i => (l.drop i).take m) = chunkRec (m - 1) l := by
  match l with
  | [] =>
    rw [chunkRec]
    have h0 : (0 + m - 1) / m = 0 := Nat.div_eq_of_lt (by omega)
    simp only [List.length_nil, h0, List.range_zero, List.map_nil]
  | c :: rest =>
    have ih := sliceMap_eq_chunkRec m hm ((c :: rest).drop m)
    have hceil : ((c :: rest).length + m - 1) / m = ((c :: rest).length - 1) / m + 1 := by
      have h1 : (c :: rest).length + m - 1 = ((c :: rest).length - 1) + m := by
        simp only [List.length_cons]; omega
      rw [h1, Nat.add_div_right _ hm]
    rw [hceil, List.range_succ_eq_map]
    simp only [List.map_cons, List.map_map]
    rw [chunkRec]
    have hm1 : m - 1 + 1 = m := by omega
    refine List.cons_eq_cons.mpr ⟨by simp [hm1], ?_⟩
    have hdropeq : rest.drop (m - 1) = (c :: rest).drop m := by
      conv_rhs => rw [← hm1]
      rw [List.drop_succ_cons]
    have hlendrop : ((c :: rest).drop m).length = (c :: rest).length - m := by
      simp
    have hk : ((c :: rest).length - 1) / m
        = (((c :: rest).drop m).length + m - 1) / m := by
      rw [hlendrop]
      simp only [List.length_cons]
      rcases Nat.lt_or_ge (rest.length + 1) m with hcase | hcase
      · rw [Nat.div_eq_of_lt (by omega), Nat.div_eq_of_lt (by omega)]
      · congr 1
        omega
    rw [hdropeq, ← ih, hk, List.map_map]
    refine List.map_congr_left fun i _ => ?_
    show ((c :: rest).drop ((i + 1) * m)).take m
        = (((c :: rest).drop m).drop (i * m)).take m
    rw [List.drop_drop]
    congr 2
    ring
termination_by l.length
decreasing_by simp; omega

/-- The slicing loop of `divide`, for a positive batch size `n`, computes
exactly the recursive batching `chunkRec (n - 1)`. -/
theorem divide_eq_chunkRec {α : Type} (lst : List α) (n : Int) (hn : 0 < n) :
    divide lst n = some (chunkRec (n.toNat - 1) lst) := by
  have hm : 0 < n.toNat := by omega
  unfold divide
  rw [if_neg (by omega)]
  refine congrArg some ?_
  rw [pyRange, if_neg (by omega), sliceMap_eq_chunkRec n.toNat hm lst]

/-- C8: for every list and positive batch size `n`, `divide` succeeds and
the batches it yields concatenate back to the original list in order, each
batch has at most `n` elements, only the final batch may be shorter than
`n`, and the empty list yields no batches. -/
theorem divide_batches_partition {α : Type} (lst : List α) (n : Int) (hn : 0 < n) :
    (divide lst n).isSome = true ∧
    ∀ C, divide lst n = some C →
      C.flatten = lst ∧
      (∀ b ∈ C, b.length ≤ n.toNat) ∧
      (∀ b ∈ C.dropLast, b.length = n.toNat) ∧
      (lst = [] → C = []) := by
  have heq := divide_eq_chunkRec lst n hn
  have hm1 : n.toNat - 1 + 1 = n.toNat := by omega
  refine ⟨by rw [heq]; rfl, fun C hC => ?_⟩
  rw [heq, Option.some.injEq] at hC
  subst hC
  refine ⟨chunkRec_flatten _ _, fun b hb => ?_, fun b hb => ?_, fun hnil => ?_⟩
  · rw [← hm1]
    exact chunkRec_length_le _ _ b hb
  · rw [← hm1]
    exact chunkRec_dropLast _ _ b hb
  · exact (chunkRec_eq_nil_iff _ _).mpr hnil

/-- Witness for C8: the spec example `divide([1,2,3,4,5], 2)`. -/
theorem divide_batches_partition_witness :
    ([[1, 2], [3, 4], [5]] : List (List Nat)).flatten = [1, 2, 3, 4, 5] ∧
    (∀ b ∈ ([[1, 2], [3, 4], [5]] : List (List Nat)), b.length ≤ (2 : Int).toNat) ∧
    (∀ b ∈ ([[1, 2], [3, 4], [5]] : List (List Nat)).dropLast,
      b.length = (2 : Int).toNat) ∧
    (([1, 2, 3, 4, 5] : List Nat) = [] → ([[1, 2], [3, 4], [5]] : List (List Nat)) = []) :=
  (divide_batches_partition [1, 2, 3, 4, 5] 2 (by decide)).2 [[1, 2], [3, 4], [5]]
    (by decide)

/-! Claim C10: termination behaviour of the `get_offer_ids` pagination
loop. -/

/-- If the break condition never holds, the loop runs out of any amount of
fuel: starting at request `m` with the corresponding accumulated
`product_list`, it never returns. -/
theorem offerLoop_diverges (pages : Nat → Page)
    (hnever : ∀ k, ¬ stopsAt pages k) :
    ∀ fuel m : Nat, offerLoop pages fuel m (accUpTo pages m) = none := by
  intro fuel
  induction fuel with
  | zero => intro m; rfl
  | succ f ih =>
    intro m
    rw [show offerLoop pages (f + 1) m (accUpTo pages m)
        = if (pages m).total = ((accUpTo pages (m + 1)).length : Int) then
            some ((accUpTo pages (m + 1)).map Product.offer_id)
          else offerLoop pages f (m + 1) (accUpTo pages (m + 1)) from rfl]
    rw [if_neg (show ¬((pages m).total = ((accUpTo pages (m + 1)).length : Int))
      from hnever m)]
    exact ih (m + 1)

/-- If the break condition first holds at request `k`, the loop started at
any earlier request `m` (with its accumulated `product_list`) returns, as
soon as the fuel covers the remaining iterations, the offer ids of
everything accumulated through request `k`. -/
theorem offerLoop_stops (pages : Nat → Page) (k : Nat) (hk : stopsAt pages k)
    (hmin : ∀ j < k, ¬ stopsAt pages j) :
    ∀ fuel m : Nat, m ≤ k → k - m < fuel →
      offerLoop pages fuel m (accUpTo pages m)
        = some ((accUpTo pages (k + 1)).map Product.offer_id) := by
  intro fuel
  induction fuel with
  | zero => intro m _ hlt; omega
  | succ f ih =>
    intro m hm hlt
    rw [show offerLoop pages (f + 1) m (accUpTo pages m)
        = if (pages m).total = ((accUpTo pages (m + 1)).length : Int) then
            some ((accUpTo pages (m + 1)).map Product.offer_id)
          else offerLoop pages f (m + 1) (accUpTo pages (m + 1)) from rfl]
    rcases eq_or_lt_of_le hm with rfl | hmk
    · rw [if_pos (show (pages m).total = ((accUpTo pages (m + 1)).length : Int)
        from hk)]
    · rw [if_neg (show ¬((pages m).total = ((accUpTo pages (m + 1)).length : Int))
        from hmin m hmk)]
      exact ih (m + 1) (by omega) (by omega)

/-- C10: `get_offer_ids` stops paging exactly when the marketplace-reported
total first equals the accumulated item count.  When the break condition
holds first at response `k`, the function (given fuel beyond `k`) returns
exactly the offer ids accumulated over responses `0..k` in page order; when
the condition holds at no response, no amount of fuel makes the loop
return. -/
theorem get_offer_ids_pagination (pages : Nat → Page) :
    (∀ k, stopsAt pages k → (∀ j < k, ¬ stopsAt pages j) →
      ∀ fuel, k < fuel →
        get_offer_ids pages fuel
          = some ((accUpTo pages (k + 1)).map Product.offer_id)) ∧
    ((∀ k, ¬ stopsAt pages k) → ∀ fuel, get_offer_ids pages fuel = none) := by
  constructor
  · intro k hk hmin fuel hfuel
    exact offerLoop_stops pages k hk hmin fuel 0 (by omega) (by omega)
  · intro hnever fuel
    exact offerLoop_diverges pages hnever fuel 0

/-- A response sequence whose first page already satisfies the break
condition: one item, reported total `1`. -/
def pagesStop : Nat → Page := fun _ => ⟨[⟨"X"⟩], 1, ""⟩

/-- A response sequence whose reported total (`0`) never equals the strictly
growing accumulated count. -/
def pagesRun : Nat → Page := fun _ => ⟨[⟨"X"⟩], 0, ""⟩

/-- Witness for C10: with `pagesStop` the loop terminates immediately and
returns the accumulated offer id; with `pagesRun` it exhausts any given
fuel. -/
theorem get_offer_ids_pagination_witness :
    get_offer_ids pagesStop 1 = some ["X"] ∧ get_offer_ids pagesRun 5 = none := by
  constructor
  · exact (get_offer_ids_pagination pagesStop).1 0 (by unfold stopsAt; rfl)
      (fun j hj => absurd hj (Nat.not_lt_zero j)) 1 (by omega)
  · refine (get_offer_ids_pagination pagesRun).2 (fun k => ?_) 5
    have hlen : ∀ j, (accUpTo pagesRun j).length = j := by
      intro j
      induction j with
      | zero => rfl
      | succ i ih => simp [accUpTo, pagesRun, ih]
    unfold stopsAt
    rw [hlen (k + 1)]
    simp only [pagesRun]
    omega

end Seller
